import Mathlib

/-!
Verification of the ACTS repository excerpt:
* `Core/include/Acts/Vertexing/KalmanVertexUpdater.hpp` — the Kalman vertex
  update/downdate primitive (declarations only; the algorithm itself lives in the
  `.ipp` file that accompanies the header and is modelled here from the design
  specification).
* `Core/include/Acts/Material/MaterialProperties.hpp` — material-with-thickness
  record with inline accessors and comparison operators.

Machine floating point (`double`/`float`) is embedded as exact rational
arithmetic (`ℚ`); all matrix algebra uses `Matrix (Fin n) (Fin m) ℚ`.
-/

open Matrix

namespace ActsKalman

/-- 3D position vectors (`Vector3D`). -/
abbrev Vec3 := Fin 3 → ℚ

/-- 5D track-parameter vectors (`ParVector_t`). -/
abbrev Vec5 := Fin 5 → ℚ

/-- 3×3 matrices (`ActsSymMatrixD<3>` and friends). -/
abbrev Mat33 := Matrix (Fin 3) (Fin 3) ℚ

/-- 5×3 Jacobians. -/
abbrev Mat53 := Matrix (Fin 5) (Fin 3) ℚ

/-- 5×5 parameter-space matrices. -/
abbrev Mat55 := Matrix (Fin 5) (Fin 5) ℚ

/-- Determinant of a 3×3 matrix, written out by cofactor expansion so that it is
directly executable (embeds the fixed-size `determinant()` of the linear-algebra
backend). -/
def det3 (M : Mat33) : ℚ :=
  M 0 0 * (M 1 1 * M 2 2 - M 1 2 * M 2 1) -
  M 0 1 * (M 1 0 * M 2 2 - M 1 2 * M 2 0) +
  M 0 2 * (M 1 0 * M 2 1 - M 1 1 * M 2 0)

/-- Adjugate (transposed cofactor matrix) of a 3×3 matrix, written out
entrywise. -/
def adj3 (M : Mat33) : Mat33 :=
  !![M 1 1 * M 2 2 - M 1 2 * M 2 1, M 0 2 * M 2 1 - M 0 1 * M 2 2,
     M 0 1 * M 1 2 - M 0 2 * M 1 1;
     M 1 2 * M 2 0 - M 1 0 * M 2 2, M 0 0 * M 2 2 - M 0 2 * M 2 0,
     M 0 2 * M 1 0 - M 0 0 * M 1 2;
     M 1 0 * M 2 1 - M 1 1 * M 2 0, M 0 1 * M 2 0 - M 0 0 * M 2 1,
     M 0 0 * M 1 1 - M 0 1 * M 1 0]

/-- Executable 3×3 matrix inverse (`.inverse()` of the linear-algebra backend):
adjugate divided by determinant.  On a singular matrix it returns the zero
matrix; every use in the embedded code is guarded by a determinant check. -/
def inv3 (M : Mat33) : Mat33 := (det3 M)⁻¹ • adj3 M

/-- `LinearizedTrack` (consumed by `KalmanVertexUpdater.hpp` as an opaque input):
track parameters as an affine function of vertex position and momentum,
`params ≈ constantTerm + positionJacobian·x + momentumJacobian·p`, together with
the measured parameter vector and its weight (inverse covariance) matrix. -/
structure LinearizedTrack where
  parametersAtPCA : Vec5
  constantTerm : Vec5
  positionJacobian : Mat53
  momentumJacobian : Mat53
  parameterWeight : Mat55

/-- `TrackAtVertex<input_track_t>`: per-track record at a candidate vertex with
its soft-assignment weight and the chi-square set by the updater.  The generic
input-track payload is irrelevant to the updater and omitted. -/
structure TrackAtVertex where
  linTrack : LinearizedTrack
  weight : ℚ
  trackChi2 : ℚ

/-- `Vertex<input_track_t>`: position estimate, its covariance, the associated
tracks, and the aggregate fit quality (chi2, ndf). -/
structure Vertex where
  position : Vec3
  covariance : Mat33
  tracks : List TrackAtVertex
  fitQuality : ℚ × ℚ

/-- Typed failure values of `Acts::Result`, following the spec error taxonomy
(`SingularMatrixError`, `InvalidInputError`). -/
inductive KalmanError where
  | singularMatrix
  | invalidInput
deriving DecidableEq

/-- Modelled from the spec: the reduced parameter weight after profiling out the
track momentum (`KalmanVertexUpdater.ipp` is not part of the excerpt), spec
step 2: `G_B = G − G·B·(Bᵀ·G·B)⁻¹·Bᵀ·G`. -/
def gBmat (lt : LinearizedTrack) : Mat55 :=
  let B := lt.momentumJacobian
  let G := lt.parameterWeight
  G - G * B * inv3 (Bᵀ * G * B) * Bᵀ * G

/-- Sylvester positive-definiteness test on a 3×3 matrix: the three leading
principal minors are positive.  Used to embed the spec's requirement that the
updated information matrix be invertible and positive-definite. -/
def posDef3Check (M : Mat33) : Prop :=
  0 < M 0 0 ∧ 0 < M 0 0 * M 1 1 - M 0 1 * M 1 0 ∧ 0 < det3 M

instance (M : Mat33) : Decidable (posDef3Check M) :=
  inferInstanceAs (Decidable (_ ∧ _ ∧ _))

/-- Modelled from the spec: `updatePosition(vtx, linTrack, trackWeight, sign)`
of `KalmanVertexUpdater` (the `.ipp` implementation is not part of the
excerpt).  Weighted information-form Kalman update, spec steps 1-5:
eliminate the momentum block `M = BᵀGB` (fails if singular), form
`G_B = G − G·B·M⁻¹·Bᵀ·G`, update the information matrix
`C_new⁻¹ = C_old⁻¹ + s·w·Aᵀ·G_B·A` (fails if singular or not
positive-definite), update the position
`x_new = C_new·(C_old⁻¹·x_old + s·w·Aᵀ·G_B·(q − c))`, and return the new
vertex; the input vertex is not mutated. -/
def updatePosition (vtx : Vertex) (linTrack : LinearizedTrack) (trackWeight : ℚ)
    (sign : ℤ) : Except KalmanError Vertex :=
  let A := linTrack.positionJacobian
  let B := linTrack.momentumJacobian
  let G := linTrack.parameterWeight
  if det3 (Bᵀ * G * B) = 0 then .error .singularMatrix
  else if det3 vtx.covariance = 0 then .error .singularMatrix
  else
    let oldWeight := inv3 vtx.covariance
    let newWeight := oldWeight + ((sign : ℚ) * trackWeight) • (Aᵀ * gBmat linTrack * A)
    if posDef3Check newWeight then
      let newCov := inv3 newWeight
      let newPos := newCov *ᵥ (oldWeight *ᵥ vtx.position +
        ((sign : ℚ) * trackWeight) • ((Aᵀ * gBmat linTrack) *ᵥ
          (linTrack.parametersAtPCA - linTrack.constantTerm)))
      .ok { vtx with position := newPos, covariance := newCov }
    else .error .singularMatrix

/-- Modelled from the spec: `detail::vertexPositionChi2(oldVtx, newVtx)`
(spec 4.2): `Δx = newVtx.position − oldVtx.position`, returns
`Δxᵀ·oldVtx.covariance⁻¹·Δx`. -/
def vertexPositionChi2 (oldVtx newVtx : Vertex) : ℚ :=
  let dx := newVtx.position - oldVtx.position
  dx ⬝ᵥ (inv3 oldVtx.covariance *ᵥ dx)

/-- Modelled from the spec: `detail::trackParametersChi2(vtx, linTrack)`
(spec 4.3): refit the momentum at the updated vertex,
`p_refit = W·Bᵀ·G·(q − c − A·x_new)`, take the residual
`r = q − c − A·x_new − B·p_refit` and return `rᵀ·G·r`. -/
def trackParametersChi2 (vtx : Vertex) (linTrack : LinearizedTrack) : ℚ :=
  let A := linTrack.positionJacobian
  let B := linTrack.momentumJacobian
  let G := linTrack.parameterWeight
  let W := inv3 (Bᵀ * G * B)
  let residualFromVtx := linTrack.parametersAtPCA - linTrack.constantTerm -
    (A *ᵥ vtx.position)
  let refittedMomentum := W *ᵥ ((Bᵀ * G) *ᵥ residualFromVtx)
  let residual := residualFromVtx - (B *ᵥ refittedMomentum)
  residual ⬝ᵥ (G *ᵥ residual)

/-- Modelled from the spec: `detail::update(vtx, trk, sign)` (spec 4.4): call
`updatePosition` with the track's weight, compute the two chi-squares, write the
new position/covariance and fit quality into the vertex and the track
chi-square into the track; on failure the error propagates and nothing is
written.  The fit-quality increment follows the information-form bookkeeping:
`chi2 += sign·(posChi2 + w·trkChi2)`, `ndf += sign·2·w`. -/
def update (vtx : Vertex) (trk : TrackAtVertex) (sign : ℤ) :
    Except KalmanError (Vertex × TrackAtVertex) :=
  match updatePosition vtx trk.linTrack trk.weight sign with
  | .error e => .error e
  | .ok newVtx =>
    let trkChi2 := trackParametersChi2 newVtx trk.linTrack
    let posChi2 := vertexPositionChi2 vtx newVtx
    let chi2 := vtx.fitQuality.1 + (sign : ℚ) * (posChi2 + trk.weight * trkChi2)
    let ndf := vtx.fitQuality.2 + (sign : ℚ) * 2 * trk.weight
    .ok ({ newVtx with fitQuality := (chi2, ndf) },
         { trk with trackChi2 := trkChi2 })

/-- `updateVertexWithTrack(vtx, trk)`: adds the track (sign = +1); it does NOT
append the track to the vertex's track list. -/
def updateVertexWithTrack (vtx : Vertex) (trk : TrackAtVertex) :
    Except KalmanError (Vertex × TrackAtVertex) :=
  update vtx trk 1

/-- Final observable state of the by-pointer mutation in the C++ signature:
on success the vertex and track carry the updated values, on failure they are
exactly the values passed in (all-or-nothing). -/
def runUpdate (vtx : Vertex) (trk : TrackAtVertex) (sign : ℤ) :
    Except KalmanError Unit × Vertex × TrackAtVertex :=
  match update vtx trk sign with
  | .ok (v, t) => (.ok (), v, t)
  | .error e => (.error e, vtx, trk)

/-- Concrete position Jacobian used in the witness scenarios: the vertex
position feeds the first two track parameters. -/
def wA : Mat53 := !![1,0,0;0,1,0;0,0,0;0,0,0;0,0,0]

/-- Concrete momentum Jacobian used in the witness scenarios: the momentum
feeds the last three track parameters (full column rank). -/
def wB : Mat53 := !![0,0,0;0,0,0;1,0,0;0,1,0;0,0,1]

/-- Concrete rank-deficient momentum Jacobian (all-zero columns) for the
failure scenario. -/
def wBbad : Mat53 := 0

/-- Concrete linearized track used in the witness scenarios: unit parameter
weight, zero constant term and measured parameters. -/
def wLt : LinearizedTrack :=
  { parametersAtPCA := ![0,0,0,0,0]
    constantTerm := ![0,0,0,0,0]
    positionJacobian := wA
    momentumJacobian := wB
    parameterWeight := 1 }

/-- Second concrete linearized track (same Jacobians, shifted measured
parameters) for the order-independence witness. -/
def wLt2 : LinearizedTrack :=
  { parametersAtPCA := ![1,0,0,0,0]
    constantTerm := ![0,0,0,0,0]
    positionJacobian := wA
    momentumJacobian := wB
    parameterWeight := 1 }

/-- Concrete linearized track with a rank-deficient momentum Jacobian for the
failure scenario. -/
def wLtBad : LinearizedTrack :=
  { parametersAtPCA := ![0,0,0,0,0]
    constantTerm := ![0,0,0,0,0]
    positionJacobian := wA
    momentumJacobian := wBbad
    parameterWeight := 1 }

/-- Concrete vertex used in the witness scenarios: origin position, unit
covariance. -/
def wVtx : Vertex :=
  { position := ![0,0,0]
    covariance := 1
    tracks := []
    fitQuality := (0, 0) }

/-- Concrete track-at-vertex wrapping `wLt` with weight 1. -/
def wTrk : TrackAtVertex := { linTrack := wLt, weight := 1, trackChi2 := 0 }

/-- Concrete track-at-vertex wrapping the rank-deficient track. -/
def wTrkBad : TrackAtVertex := { linTrack := wLtBad, weight := 1, trackChi2 := 0 }

/-- Positive-semidefiniteness of a square rational matrix, stated through the
quadratic form. -/
def PosSemidefQ {n : ℕ} (M : Matrix (Fin n) (Fin n) ℚ) : Prop :=
  ∀ v : Fin n → ℚ, 0 ≤ v ⬝ᵥ (M *ᵥ v)

/-- Positive-definiteness of a square rational matrix, stated through the
quadratic form. -/
def PosDefQ {n : ℕ} (M : Matrix (Fin n) (Fin n) ℚ) : Prop :=
  ∀ v : Fin n → ℚ, v ≠ 0 → 0 < v ⬝ᵥ (M *ᵥ v)

end ActsKalman

namespace ActsMaterial

/-- Modelled from the spec: the `Acts::Material` class
(`Acts/Material/Material.hpp` is not part of the excerpt).  It stores the five
material constants listed in the `MaterialProperties.hpp` units block —
radiation length X0 [mm], nuclear interaction length L0 [mm], atomic weight A
[g/mole], atomic number Z, density rho [g/mm3].  Default construction is
vacuum (all constants zero); the boolean conversion is false exactly for
vacuum ("false indicates it's vacuum"); equality compares the stored
constants. -/
structure Material where
  X0 : ℚ := 0
  L0 : ℚ := 0
  A : ℚ := 0
  Z : ℚ := 0
  rho : ℚ := 0
deriving DecidableEq

/-- The default-constructed (vacuum) material. -/
def Material.vacuum : Material := {}

/-- Modelled from the spec: `Material::operator bool`, false exactly for
vacuum. -/
def Material.toBool (m : Material) : Bool := decide (m ≠ Material.vacuum)

/-- `MaterialProperties`: a material with an associated thickness, stored as
the material plus the thickness in units of radiation length and of nuclear
interaction length (member initializers of `MaterialProperties.hpp`, lines
200-204). -/
structure MaterialProperties where
  m_material : Material := Material.vacuum
  m_dInX0 : ℚ := 0
  m_dInL0 : ℚ := 0
deriving DecidableEq

/-- The default-constructed `MaterialProperties`. -/
def MaterialProperties.mkDefault : MaterialProperties := {}

/-- Modelled from the spec: the six-argument constructor
(`MaterialProperties.cpp` is not part of the excerpt).  It stores the material
constants and converts the geometric thickness into units of radiation and
interaction length: `m_dInX0 = thickness / X0` when X0 is nonzero (0
otherwise), and likewise for L0. -/
def MaterialProperties.ofParams (Xo Lo averageA averageZ averageRho thickness : ℚ) :
    MaterialProperties :=
  { m_material := { X0 := Xo, L0 := Lo, A := averageA, Z := averageZ, rho := averageRho }
    m_dInX0 := if Xo ≠ 0 then thickness / Xo else 0
    m_dInL0 := if Lo ≠ 0 then thickness / Lo else 0 }

/-- `MaterialProperties::material()`. -/
def MaterialProperties.material (mp : MaterialProperties) : Material := mp.m_material

/-- `MaterialProperties::thicknessInX0()`: returns `m_dInX0`. -/
def MaterialProperties.thicknessInX0 (mp : MaterialProperties) : ℚ := mp.m_dInX0

/-- `MaterialProperties::thicknessInL0()`: returns `m_dInL0`. -/
def MaterialProperties.thicknessInL0 (mp : MaterialProperties) : ℚ := mp.m_dInL0

/-- `MaterialProperties::thickness()`: returns `m_dInX0 * m_material.X0()`
(lines 224-228). -/
def MaterialProperties.thickness (mp : MaterialProperties) : ℚ :=
  mp.m_dInX0 * mp.m_material.X0

/-- `MaterialProperties::averageX0()`: returns `m_material.X0()`. -/
def MaterialProperties.averageX0 (mp : MaterialProperties) : ℚ := mp.m_material.X0

/-- `MaterialProperties::averageL0()`: returns `m_material.L0()`. -/
def MaterialProperties.averageL0 (mp : MaterialProperties) : ℚ := mp.m_material.L0

/-- `MaterialProperties::operator bool`: delegates to the material's boolean
conversion (line 157). -/
def MaterialProperties.toBool (mp : MaterialProperties) : Bool := mp.m_material.toBool

/-- `MaterialProperties::operator==` (lines 266-271): compares the material and
the two stored thickness fractions. -/
def MaterialProperties.beq (a b : MaterialProperties) : Bool :=
  decide (a.m_material = b.m_material) && decide (a.m_dInX0 = b.m_dInX0) &&
    decide (a.m_dInL0 = b.m_dInL0)

/-- `MaterialProperties::operator!=` (lines 273-277): the negation of
`operator==`. -/
def MaterialProperties.bne (a b : MaterialProperties) : Bool := !(a.beq b)

end ActsMaterial

namespace ActsKalman

theorem det3_eq_det (M : Mat33) : det3 M = M.det := by
  rw [Matrix.det_fin_three, det3]; ring

theorem adj3_eq_adjugate (M : Mat33) : adj3 M = M.adjugate := by
  rw [Matrix.adjugate_fin_three]
  ext i j
  fin_cases i <;> fin_cases j <;> simp [adj3] <;> ring

theorem det3_mul (M N : Mat33) : det3 (M * N) = det3 M * det3 N := by
  simp [det3_eq_det, Matrix.det_mul]

theorem det3_one : det3 (1 : Mat33) = 1 := by
  simp [det3_eq_det]

theorem det3_transpose (M : Mat33) : det3 Mᵀ = det3 M := by
  simp [det3_eq_det, Matrix.det_transpose]

theorem inv3_mul {M : Mat33} (h : det3 M ≠ 0) : inv3 M * M = 1 := by
  rw [inv3, adj3_eq_adjugate, Matrix.smul_mul, Matrix.adjugate_mul, det3_eq_det, smul_smul,
    inv_mul_cancel₀ (by rwa [det3_eq_det] at h), one_smul]

theorem mul_inv3 {M : Mat33} (h : det3 M ≠ 0) : M * inv3 M = 1 := by
  rw [inv3, adj3_eq_adjugate, Matrix.mul_smul, Matrix.mul_adjugate, det3_eq_det, smul_smul,
    inv_mul_cancel₀ (by rwa [det3_eq_det] at h), one_smul]

theorem det3_inv3_ne_zero {M : Mat33} (h : det3 M ≠ 0) : det3 (inv3 M) ≠ 0 := by
  have hm := congrArg det3 (inv3_mul h)
  rw [det3_mul, det3_one] at hm
  intro h0
  rw [h0, zero_mul] at hm
  exact one_ne_zero hm.symm

theorem inv3_inv3 {M : Mat33} (h : det3 M ≠ 0) : inv3 (inv3 M) = M := by
  calc inv3 (inv3 M) = inv3 (inv3 M) * (inv3 M * M) := by rw [inv3_mul h, mul_one]
    _ = inv3 (inv3 M) * inv3 M * M := by rw [mul_assoc]
    _ = M := by rw [inv3_mul (det3_inv3_ne_zero h), one_mul]

theorem inv3_transpose {M : Mat33} (h : det3 M ≠ 0) : inv3 Mᵀ = (inv3 M)ᵀ := by
  have ht : det3 Mᵀ ≠ 0 := by rwa [det3_transpose]
  calc inv3 Mᵀ = inv3 Mᵀ * (Mᵀ * (inv3 M)ᵀ) := by
        rw [← Matrix.transpose_mul, inv3_mul h, Matrix.transpose_one, mul_one]
    _ = inv3 Mᵀ * Mᵀ * (inv3 M)ᵀ := by rw [mul_assoc]
    _ = (inv3 M)ᵀ := by rw [inv3_mul ht, one_mul]

theorem inv3_symm {M : Mat33} (h : det3 M ≠ 0) (hs : Mᵀ = M) : (inv3 M)ᵀ = inv3 M := by
  rw [← inv3_transpose h, hs]

theorem inv3_one : inv3 (1 : Mat33) = 1 := by
  have h := mul_inv3 (M := 1) (by rw [det3_one]; exact one_ne_zero)
  rwa [one_mul] at h

/-- Quadratic-form conjugation: `vᵀ·(Sᵀ G S)·v = (S v)ᵀ·G·(S v)`. -/
theorem dotProduct_conj {m n : ℕ} (S : Matrix (Fin m) (Fin n) ℚ)
    (G : Matrix (Fin m) (Fin m) ℚ) (v : Fin n → ℚ) :
    v ⬝ᵥ ((Sᵀ * G * S) *ᵥ v) = (S *ᵥ v) ⬝ᵥ (G *ᵥ (S *ᵥ v)) := by
  rw [Matrix.mul_assoc, ← Matrix.mulVec_mulVec, Matrix.dotProduct_mulVec,
    Matrix.vecMul_transpose, Matrix.mulVec_mulVec]

/-- Success characterization of the modelled `updatePosition`: the call
returns `.ok` exactly when the three numerical checks pass, and then the new
vertex carries the information-form update of covariance and position. -/
theorem updatePosition_eq_ok (vtx : Vertex) (lt : LinearizedTrack) (w : ℚ)
    (s : ℤ) (V' : Vertex) :
    updatePosition vtx lt w s = .ok V' ↔
      det3 (lt.momentumJacobianᵀ * lt.parameterWeight * lt.momentumJacobian) ≠ 0 ∧
      det3 vtx.covariance ≠ 0 ∧
      posDef3Check (inv3 vtx.covariance +
        ((s : ℚ) * w) • (lt.positionJacobianᵀ * gBmat lt * lt.positionJacobian)) ∧
      V' = { vtx with
        position := inv3 (inv3 vtx.covariance +
            ((s : ℚ) * w) • (lt.positionJacobianᵀ * gBmat lt * lt.positionJacobian)) *ᵥ
          (inv3 vtx.covariance *ᵥ vtx.position +
            ((s : ℚ) * w) • ((lt.positionJacobianᵀ * gBmat lt) *ᵥ
              (lt.parametersAtPCA - lt.constantTerm)))
        covariance := inv3 (inv3 vtx.covariance +
          ((s : ℚ) * w) • (lt.positionJacobianᵀ * gBmat lt * lt.positionJacobian)) } := by
  simp only [updatePosition]
  split_ifs with h1 h2 h3
  · simp [h1]
  · simp [h2]
  · simp only [Except.ok.injEq]
    constructor
    · intro h
      exact ⟨h1, h2, h3, h.symm⟩
    · intro ⟨_, _, _, h⟩
      exact h.symm
  · constructor
    · intro h
      cases h
    · intro ⟨_, _, h, _⟩
      exact absurd h h3

/-- C1: for every vertex (covariance `C_old`, position `x_old`), every
linearized track (constant term `c`, measured parameters `q`, position Jacobian
`A`, momentum Jacobian `B`, parameter weight `G`), every weight and sign, when
the required inversions are nonsingular (and the updated information matrix
passes the positive-definiteness check), `updatePosition` returns a vertex
whose covariance satisfies `C_new⁻¹ = C_old⁻¹ + s·w·Aᵀ·G_B·A` with
`G_B = G − G·B·(Bᵀ·G·B)⁻¹·Bᵀ·G`, and whose position is
`x_new = C_new·(C_old⁻¹·x_old + s·w·Aᵀ·G_B·(q − c))`. -/
theorem claim1_updatePosition_formulas (vtx : Vertex) (lt : LinearizedTrack)
    (w : ℚ) (s : ℤ)
    (hM : det3 (lt.momentumJacobianᵀ * lt.parameterWeight * lt.momentumJacobian) ≠ 0)
    (hC : det3 vtx.covariance ≠ 0)
    (hPD : posDef3Check (inv3 vtx.covariance +
      ((s : ℚ) * w) • (lt.positionJacobianᵀ * gBmat lt * lt.positionJacobian))) :
    ∃ newVtx, updatePosition vtx lt w s = .ok newVtx ∧
      inv3 newVtx.covariance = inv3 vtx.covariance +
        ((s : ℚ) * w) • (lt.positionJacobianᵀ * gBmat lt * lt.positionJacobian) ∧
      newVtx.position = newVtx.covariance *ᵥ
        (inv3 vtx.covariance *ᵥ vtx.position +
          ((s : ℚ) * w) • ((lt.positionJacobianᵀ * gBmat lt) *ᵥ
            (lt.parametersAtPCA - lt.constantTerm))) := by
  refine ⟨_, (updatePosition_eq_ok vtx lt w s _).mpr ⟨hM, hC, hPD, rfl⟩, ?_, ?_⟩
  · exact inv3_inv3 (ne_of_gt hPD.2.2)
  · rfl

theorem wBtB : wBᵀ * wB = 1 := by
  ext i j
  rw [Matrix.one_fin_three]
  fin_cases i <;> fin_cases j <;>
    simp [wB, Matrix.mul_apply, Fin.sum_univ_succ, Matrix.transpose_apply,
      Matrix.vecHead, Matrix.vecTail]

theorem wAtB : wAᵀ * wB = 0 := by
  ext i j
  fin_cases i <;> fin_cases j <;>
    simp [wA, wB, Matrix.mul_apply, Fin.sum_univ_succ, Matrix.transpose_apply,
      Matrix.vecHead, Matrix.vecTail]

theorem wAtA : wAᵀ * wA = !![1,0,0;0,1,0;0,0,(0:ℚ)] := by
  ext i j
  fin_cases i <;> fin_cases j <;>
    simp [wA, Matrix.mul_apply, Fin.sum_univ_succ, Matrix.transpose_apply,
      Matrix.vecHead, Matrix.vecTail]

theorem wBtGB : wLt.momentumJacobianᵀ * wLt.parameterWeight * wLt.momentumJacobian = 1 := by
  show wBᵀ * 1 * wB = 1
  rw [Matrix.mul_one, wBtB]

theorem wgB : gBmat wLt = 1 - wB * wBᵀ := by
  show (1 : Mat55) - 1 * wB * inv3 (wBᵀ * 1 * wB) * wBᵀ * 1 = 1 - wB * wBᵀ
  simp only [Matrix.mul_one, Matrix.one_mul]
  rw [wBtB, inv3_one, Matrix.mul_one]

theorem wK : wLt.positionJacobianᵀ * gBmat wLt * wLt.positionJacobian =
    !![1,0,0;0,1,0;0,0,(0:ℚ)] := by
  show wAᵀ * gBmat wLt * wA = _
  rw [wgB, Matrix.mul_sub, Matrix.mul_one, Matrix.sub_mul, ← Matrix.mul_assoc, wAtB,
    Matrix.zero_mul, Matrix.zero_mul, sub_zero, wAtA]

theorem wCov : wVtx.covariance = (1 : Mat33) := rfl

theorem wMnonsing :
    det3 (wLt.momentumJacobianᵀ * wLt.parameterWeight * wLt.momentumJacobian) ≠ 0 := by
  rw [wBtGB, det3_one]; exact one_ne_zero

/-- Witness for C1: the update succeeds on a concrete unit-covariance vertex
and a concrete well-conditioned track, producing the information-form
covariance and position. -/
theorem claim1_witness :
    ∃ newVtx, updatePosition wVtx wLt 1 1 = .ok newVtx ∧
      inv3 newVtx.covariance = inv3 wVtx.covariance +
        (((1 : ℤ) : ℚ) * 1) • (wLt.positionJacobianᵀ * gBmat wLt * wLt.positionJacobian) ∧
      newVtx.position = newVtx.covariance *ᵥ
        (inv3 wVtx.covariance *ᵥ wVtx.position +
          (((1 : ℤ) : ℚ) * 1) • ((wLt.positionJacobianᵀ * gBmat wLt) *ᵥ
            (wLt.parametersAtPCA - wLt.constantTerm))) :=
  claim1_updatePosition_formulas wVtx wLt 1 1
    wMnonsing
    (by rw [wCov, det3_one]; exact one_ne_zero)
    (by rw [wK, wCov, inv3_one, Matrix.one_fin_three]
        norm_num [posDef3Check, det3, Matrix.add_apply, Matrix.smul_apply,
          Matrix.vecHead, Matrix.vecTail])

/-- C2: adding a track with `updatePosition` at sign +1 and then removing the
same track with the same weight at sign -1 restores the original position and
covariance exactly (round-trip law; arithmetic here is exact). -/
theorem claim2_add_remove_roundtrip (vtx : Vertex) (lt : LinearizedTrack)
    (w : ℚ) (V1 V2 : Vertex)
    (h1 : updatePosition vtx lt w 1 = .ok V1)
    (h2 : updatePosition V1 lt w (-1) = .ok V2) :
    V2.position = vtx.position ∧ V2.covariance = vtx.covariance := by
  rw [updatePosition_eq_ok] at h1 h2
  obtain ⟨hM, hC, hPD1, hV1⟩ := h1
  obtain ⟨-, -, hPD2, hV2⟩ := h2
  simp only [Int.cast_one, Int.cast_neg, one_mul, neg_mul] at hPD1 hV1 hPD2 hV2
  subst hV1
  dsimp only at hPD2 hV2
  subst hV2
  dsimp only
  have hdW1 : det3 (inv3 vtx.covariance +
      w • (lt.positionJacobianᵀ * gBmat lt * lt.positionJacobian)) ≠ 0 :=
    ne_of_gt hPD1.2.2
  constructor
  · rw [inv3_inv3 hdW1, neg_smul, add_neg_cancel_right, inv3_inv3 hC,
      Matrix.mulVec_mulVec, mul_inv3 hdW1, Matrix.one_mulVec, neg_smul,
      add_neg_cancel_right, Matrix.mulVec_mulVec, mul_inv3 hC, Matrix.one_mulVec]
  · rw [inv3_inv3 hdW1, neg_smul, add_neg_cancel_right, inv3_inv3 hC]

/-- Witness for C2: a concrete add-then-remove round trip that restores the
unit-covariance vertex. -/
theorem claim2_witness : ∃ V1 V2,
    updatePosition wVtx wLt 1 1 = .ok V1 ∧
    updatePosition V1 wLt 1 (-1) = .ok V2 ∧
    V2.position = wVtx.position ∧ V2.covariance = wVtx.covariance := by
  have hC0 : det3 wVtx.covariance ≠ 0 := by rw [wCov, det3_one]; exact one_ne_zero
  have hPD1 : posDef3Check (inv3 wVtx.covariance +
      (((1 : ℤ) : ℚ) * 1) • (wLt.positionJacobianᵀ * gBmat wLt * wLt.positionJacobian)) := by
    rw [wK, wCov, inv3_one, Matrix.one_fin_three]
    norm_num [posDef3Check, det3, Matrix.add_apply, Matrix.smul_apply,
      Matrix.vecHead, Matrix.vecTail]
  obtain ⟨V1, h1⟩ : ∃ V1, updatePosition wVtx wLt 1 1 = .ok V1 :=
    ⟨_, (updatePosition_eq_ok wVtx wLt 1 1 _).mpr ⟨wMnonsing, hC0, hPD1, rfl⟩⟩
  obtain ⟨-, -, hPD1', hV1⟩ := (updatePosition_eq_ok wVtx wLt 1 1 V1).mp h1
  have hC1 : det3 V1.covariance ≠ 0 := by
    rw [hV1]; exact det3_inv3_ne_zero (ne_of_gt hPD1'.2.2)
  have hPD2 : posDef3Check (inv3 V1.covariance +
      (((-1 : ℤ) : ℚ) * 1) • (wLt.positionJacobianᵀ * gBmat wLt * wLt.positionJacobian)) := by
    rw [hV1]
    dsimp only
    rw [inv3_inv3 (ne_of_gt hPD1'.2.2)]
    rw [wK, wCov, inv3_one, Matrix.one_fin_three]
    norm_num [posDef3Check, det3, Matrix.add_apply, Matrix.smul_apply,
      Matrix.vecHead, Matrix.vecTail]
  have h2 := (updatePosition_eq_ok V1 wLt 1 (-1) _).mpr ⟨wMnonsing, hC1, hPD2, rfl⟩
  exact ⟨V1, _, h1, h2, claim2_add_remove_roundtrip wVtx wLt 1 V1 _ h1 h2⟩

/-- C5: with weight 0 the update is a no-op: whenever the call succeeds it
returns a vertex equal to the input (position, covariance, and all other
fields); `updatePosition` is a pure function of its arguments and cannot
mutate the input vertex. -/
theorem claim5_weight_zero_noop (vtx : Vertex) (lt : LinearizedTrack) (s : ℤ)
    (V' : Vertex) (h : updatePosition vtx lt 0 s = .ok V') : V' = vtx := by
  rw [updatePosition_eq_ok] at h
  obtain ⟨hM, hC, hPD, hV⟩ := h
  subst hV
  simp only [mul_zero, zero_smul, add_zero]
  rw [inv3_inv3 hC, Matrix.mulVec_mulVec, mul_inv3 hC, Matrix.one_mulVec]

/-- Witness for C5: the weight-zero update succeeds on the concrete vertex and
track and returns the vertex unchanged. -/
theorem claim5_witness : ∃ V', updatePosition wVtx wLt 0 1 = .ok V' ∧ V' = wVtx := by
  have hC0 : det3 wVtx.covariance ≠ 0 := by rw [wCov, det3_one]; exact one_ne_zero
  have hPD : posDef3Check (inv3 wVtx.covariance +
      (((1 : ℤ) : ℚ) * 0) • (wLt.positionJacobianᵀ * gBmat wLt * wLt.positionJacobian)) := by
    have hz : ((1 : ℤ) : ℚ) * 0 = 0 := by norm_num
    rw [wCov, inv3_one, hz, zero_smul, add_zero, Matrix.one_fin_three]
    norm_num [posDef3Check, det3, Matrix.vecHead, Matrix.vecTail]
  have h := (updatePosition_eq_ok wVtx wLt 0 1 _).mpr ⟨wMnonsing, hC0, hPD, rfl⟩
  exact ⟨_, h, claim5_weight_zero_noop wVtx wLt 1 _ h⟩

/-- C8: adding two tracks with sign +1 yields the same final position and
covariance in either order (information-form additivity; arithmetic here is
exact). -/
theorem claim8_order_independence (vtx : Vertex) (lt1 lt2 : LinearizedTrack)
    (w1 w2 : ℚ) (V1 V12 V2 V21 : Vertex)
    (h1 : updatePosition vtx lt1 w1 1 = .ok V1)
    (h12 : updatePosition V1 lt2 w2 1 = .ok V12)
    (h2 : updatePosition vtx lt2 w2 1 = .ok V2)
    (h21 : updatePosition V2 lt1 w1 1 = .ok V21) :
    V12.position = V21.position ∧ V12.covariance = V21.covariance := by
  rw [updatePosition_eq_ok] at h1 h12 h2 h21
  obtain ⟨-, hC, hPD1, hV1⟩ := h1
  obtain ⟨-, -, hPD12, hV12⟩ := h12
  obtain ⟨-, -, hPD2, hV2⟩ := h2
  obtain ⟨-, -, hPD21, hV21⟩ := h21
  simp only [Int.cast_one, one_mul] at hPD1 hV1 hPD12 hV12 hPD2 hV2 hPD21 hV21
  subst hV1 hV2
  dsimp only at hPD12 hV12 hPD21 hV21
  subst hV12 hV21
  dsimp only
  have d1 : det3 (inv3 vtx.covariance +
      w1 • (lt1.positionJacobianᵀ * gBmat lt1 * lt1.positionJacobian)) ≠ 0 :=
    ne_of_gt hPD1.2.2
  have d2 : det3 (inv3 vtx.covariance +
      w2 • (lt2.positionJacobianᵀ * gBmat lt2 * lt2.positionJacobian)) ≠ 0 :=
    ne_of_gt hPD2.2.2
  have e1 : inv3 vtx.covariance +
        w1 • (lt1.positionJacobianᵀ * gBmat lt1 * lt1.positionJacobian) +
        w2 • (lt2.positionJacobianᵀ * gBmat lt2 * lt2.positionJacobian) =
      inv3 vtx.covariance +
        w2 • (lt2.positionJacobianᵀ * gBmat lt2 * lt2.positionJacobian) +
        w1 • (lt1.positionJacobianᵀ * gBmat lt1 * lt1.positionJacobian) :=
    add_right_comm _ _ _
  have e2 : inv3 vtx.covariance *ᵥ vtx.position +
        w1 • ((lt1.positionJacobianᵀ * gBmat lt1) *ᵥ
          (lt1.parametersAtPCA - lt1.constantTerm)) +
        w2 • ((lt2.positionJacobianᵀ * gBmat lt2) *ᵥ
          (lt2.parametersAtPCA - lt2.constantTerm)) =
      inv3 vtx.covariance *ᵥ vtx.position +
        w2 • ((lt2.positionJacobianᵀ * gBmat lt2) *ᵥ
          (lt2.parametersAtPCA - lt2.constantTerm)) +
        w1 • ((lt1.positionJacobianᵀ * gBmat lt1) *ᵥ
          (lt1.parametersAtPCA - lt1.constantTerm)) :=
    add_right_comm _ _ _
  constructor
  · rw [inv3_inv3 d1, inv3_inv3 d2, Matrix.mulVec_mulVec, Matrix.mulVec_mulVec,
      mul_inv3 d1, mul_inv3 d2, Matrix.one_mulVec, Matrix.one_mulVec, e1, e2]
  · rw [inv3_inv3 d1, inv3_inv3 d2, e1]

theorem wMnonsing2 :
    det3 (wLt2.momentumJacobianᵀ * wLt2.parameterWeight * wLt2.momentumJacobian) ≠ 0 :=
  wMnonsing

theorem wK2 : wLt2.positionJacobianᵀ * gBmat wLt2 * wLt2.positionJacobian =
    !![1,0,0;0,1,0;0,0,(0:ℚ)] :=
  wK

/-- Witness for C8: two concrete tracks added to the unit-covariance vertex in
both orders give the same position and covariance. -/
theorem claim8_witness : ∃ V1 V12 V2 V21,
    updatePosition wVtx wLt 1 1 = .ok V1 ∧
    updatePosition V1 wLt2 1 1 = .ok V12 ∧
    updatePosition wVtx wLt2 1 1 = .ok V2 ∧
    updatePosition V2 wLt 1 1 = .ok V21 ∧
    V12.position = V21.position ∧ V12.covariance = V21.covariance := by
  have hC0 : det3 wVtx.covariance ≠ 0 := by rw [wCov, det3_one]; exact one_ne_zero
  have hPD1 : posDef3Check (inv3 wVtx.covariance +
      (((1 : ℤ) : ℚ) * 1) • (wLt.positionJacobianᵀ * gBmat wLt * wLt.positionJacobian)) := by
    rw [wK, wCov, inv3_one, Matrix.one_fin_three]
    norm_num [posDef3Check, det3, Matrix.add_apply, Matrix.smul_apply,
      Matrix.vecHead, Matrix.vecTail]
  have hPD2 : posDef3Check (inv3 wVtx.covariance +
      (((1 : ℤ) : ℚ) * 1) • (wLt2.positionJacobianᵀ * gBmat wLt2 * wLt2.positionJacobian)) := by
    rw [wK2, wCov, inv3_one, Matrix.one_fin_three]
    norm_num [posDef3Check, det3, Matrix.add_apply, Matrix.smul_apply,
      Matrix.vecHead, Matrix.vecTail]
  obtain ⟨V1, h1⟩ : ∃ V1, updatePosition wVtx wLt 1 1 = .ok V1 :=
    ⟨_, (updatePosition_eq_ok wVtx wLt 1 1 _).mpr ⟨wMnonsing, hC0, hPD1, rfl⟩⟩
  obtain ⟨V2, h2⟩ : ∃ V2, updatePosition wVtx wLt2 1 1 = .ok V2 :=
    ⟨_, (updatePosition_eq_ok wVtx wLt2 1 1 _).mpr ⟨wMnonsing2, hC0, hPD2, rfl⟩⟩
  obtain ⟨-, -, hPD1', hV1⟩ := (updatePosition_eq_ok wVtx wLt 1 1 V1).mp h1
  obtain ⟨-, -, hPD2', hV2⟩ := (updatePosition_eq_ok wVtx wLt2 1 1 V2).mp h2
  have hC1 : det3 V1.covariance ≠ 0 := by
    rw [hV1]; exact det3_inv3_ne_zero (ne_of_gt hPD1'.2.2)
  have hC2 : det3 V2.covariance ≠ 0 := by
    rw [hV2]; exact det3_inv3_ne_zero (ne_of_gt hPD2'.2.2)
  have hPD12 : posDef3Check (inv3 V1.covariance +
      (((1 : ℤ) : ℚ) * 1) • (wLt2.positionJacobianᵀ * gBmat wLt2 * wLt2.positionJacobian)) := by
    rw [hV1]
    dsimp only
    rw [inv3_inv3 (ne_of_gt hPD1'.2.2)]
    rw [wK, wK2, wCov, inv3_one, Matrix.one_fin_three]
    norm_num [posDef3Check, det3, Matrix.add_apply, Matrix.smul_apply,
      Matrix.vecHead, Matrix.vecTail]
  have hPD21 : posDef3Check (inv3 V2.covariance +
      (((1 : ℤ) : ℚ) * 1) • (wLt.positionJacobianᵀ * gBmat wLt * wLt.positionJacobian)) := by
    rw [hV2]
    dsimp only
    rw [inv3_inv3 (ne_of_gt hPD2'.2.2)]
    rw [wK, wK2, wCov, inv3_one, Matrix.one_fin_three]
    norm_num [posDef3Check, det3, Matrix.add_apply, Matrix.smul_apply,
      Matrix.vecHead, Matrix.vecTail]
  have h12 := (updatePosition_eq_ok V1 wLt2 1 1 _).mpr ⟨wMnonsing2, hC1, hPD12, rfl⟩
  have h21 := (updatePosition_eq_ok V2 wLt 1 1 _).mpr ⟨wMnonsing, hC2, hPD21, rfl⟩
  exact ⟨V1, _, V2, _, h1, h12, h2, h21,
    claim8_order_independence wVtx wLt wLt2 1 1 V1 _ V2 _ h1 h12 h2 h21⟩

/-- C3: whenever `update` (hence `updateVertexWithTrack`) fails, the failure is
a typed error value and the observable state of the vertex and track after the
call is exactly the state passed in (all-or-nothing); in particular a momentum
Jacobian with a zero column (rank < 3) makes the momentum block `BᵀGB`
singular, so the call fails with the singular-matrix error and the vertex and
track are left untouched. -/
theorem claim3_failure_atomicity :
    (∀ (vtx : Vertex) (trk : TrackAtVertex) (s : ℤ) (e : KalmanError),
      update vtx trk s = .error e →
      runUpdate vtx trk s = (.error e, vtx, trk)) ∧
    (∀ (vtx : Vertex) (trk : TrackAtVertex) (s : ℤ) (j : Fin 3),
      (∀ i, trk.linTrack.momentumJacobian i j = 0) →
      runUpdate vtx trk s = (.error .singularMatrix, vtx, trk)) := by
  constructor
  · intro vtx trk s e h
    rw [runUpdate, h]
  · intro vtx trk s j hB
    have hrow : ∀ k, (trk.linTrack.momentumJacobianᵀ * trk.linTrack.parameterWeight *
        trk.linTrack.momentumJacobian) j k = 0 := by
      intro k
      simp [Matrix.mul_apply, Matrix.transpose_apply, hB]
    have hdet : det3 (trk.linTrack.momentumJacobianᵀ * trk.linTrack.parameterWeight *
        trk.linTrack.momentumJacobian) = 0 := by
      rw [det3_eq_det]
      exact Matrix.det_eq_zero_of_row_eq_zero j hrow
    have hfail : updatePosition vtx trk.linTrack trk.weight s = .error .singularMatrix := by
      simp only [updatePosition]
      rw [if_pos hdet]
    have hupd : update vtx trk s = .error .singularMatrix := by
      simp only [update, hfail]
    simp only [runUpdate, hupd]

/-- Witness for C3: the all-zero momentum Jacobian triggers the typed failure
and leaves the concrete vertex and track bit-identical. -/
theorem claim3_witness :
    runUpdate wVtx wTrkBad 1 = (.error .singularMatrix, wVtx, wTrkBad) :=
  claim3_failure_atomicity.2 wVtx wTrkBad 1 0 (fun _ => rfl)

/-- C4: a successful `updateVertexWithTrack` updates the vertex's position,
covariance and fit quality from the `updatePosition` result and sets the
track's chi-square, but returns the vertex's tracks collection exactly as it
was (the track is not appended; membership is the caller's job). -/
theorem claim4_frame (vtx : Vertex) (trk : TrackAtVertex) (v' : Vertex)
    (t' : TrackAtVertex) (h : updateVertexWithTrack vtx trk = .ok (v', t')) :
    ∃ newVtx, updatePosition vtx trk.linTrack trk.weight 1 = .ok newVtx ∧
      v'.position = newVtx.position ∧
      v'.covariance = newVtx.covariance ∧
      v'.tracks = vtx.tracks ∧
      v'.fitQuality = (vtx.fitQuality.1 + ((1 : ℤ) : ℚ) *
          (vertexPositionChi2 vtx newVtx +
            trk.weight * trackParametersChi2 newVtx trk.linTrack),
        vtx.fitQuality.2 + ((1 : ℤ) : ℚ) * 2 * trk.weight) ∧
      t' = { trk with trackChi2 := trackParametersChi2 newVtx trk.linTrack } := by
  rw [updateVertexWithTrack] at h
  cases hup : updatePosition vtx trk.linTrack trk.weight 1 with
  | error e =>
    simp only [update, hup] at h
    cases h
  | ok newVtx =>
    simp only [update, hup] at h
    injection h with h
    injection h with h1 h2
    subst h1
    subst h2
    obtain ⟨-, -, -, hV⟩ :=
      (updatePosition_eq_ok vtx trk.linTrack trk.weight 1 newVtx).mp hup
    refine ⟨newVtx, rfl, rfl, rfl, ?_, rfl, rfl⟩
    rw [hV]

/-- Witness for C4: a concrete successful add leaves the (empty) track list of
the vertex unchanged and fills in the chi-squares. -/
theorem claim4_witness : ∃ v' t', updateVertexWithTrack wVtx wTrk = .ok (v', t') ∧
    ∃ newVtx, updatePosition wVtx wTrk.linTrack wTrk.weight 1 = .ok newVtx ∧
      v'.position = newVtx.position ∧
      v'.covariance = newVtx.covariance ∧
      v'.tracks = wVtx.tracks ∧
      v'.fitQuality = (wVtx.fitQuality.1 + ((1 : ℤ) : ℚ) *
          (vertexPositionChi2 wVtx newVtx +
            wTrk.weight * trackParametersChi2 newVtx wTrk.linTrack),
        wVtx.fitQuality.2 + ((1 : ℤ) : ℚ) * 2 * wTrk.weight) ∧
      t' = { wTrk with trackChi2 := trackParametersChi2 newVtx wTrk.linTrack } := by
  have hC0 : det3 wVtx.covariance ≠ 0 := by rw [wCov, det3_one]; exact one_ne_zero
  have hPD1 : posDef3Check (inv3 wVtx.covariance +
      (((1 : ℤ) : ℚ) * 1) • (wLt.positionJacobianᵀ * gBmat wLt * wLt.positionJacobian)) := by
    rw [wK, wCov, inv3_one, Matrix.one_fin_three]
    norm_num [posDef3Check, det3, Matrix.add_apply, Matrix.smul_apply,
      Matrix.vecHead, Matrix.vecTail]
  have hup : ∃ newVtx, updatePosition wVtx wTrk.linTrack wTrk.weight 1 = .ok newVtx :=
    ⟨_, (updatePosition_eq_ok wVtx wTrk.linTrack wTrk.weight 1 _).mpr
      ⟨wMnonsing, hC0, hPD1, rfl⟩⟩
  obtain ⟨newVtx, hup⟩ := hup
  obtain ⟨res, hok⟩ : ∃ res, updateVertexWithTrack wVtx wTrk = .ok res := by
    rw [updateVertexWithTrack]
    simp only [update, hup]
    exact ⟨_, rfl⟩
  obtain ⟨v', t'⟩ := res
  exact ⟨v', t', hok, claim4_frame wVtx wTrk v' t' hok⟩

/-- A rational vector dotted with itself is nonnegative. -/
theorem dotProduct_self_nonneg {n : ℕ} (v : Fin n → ℚ) : 0 ≤ v ⬝ᵥ v :=
  Finset.sum_nonneg fun i _ => mul_self_nonneg (v i)

theorem posDefQ_one3 : PosDefQ (1 : Mat33) := by
  intro v hv
  rw [Matrix.one_mulVec]
  rcases (dotProduct_self_nonneg v).lt_or_eq with h | h
  · exact h
  · exact absurd (Matrix.dotProduct_self_eq_zero.mp h.symm) hv

theorem posSemidefQ_one5 : PosSemidefQ (1 : Mat55) := by
  intro v
  rw [Matrix.one_mulVec]
  exact dotProduct_self_nonneg v

/-- A positive-definite rational matrix has nonzero determinant. -/
theorem posDefQ_det3_ne {M : Mat33} (h : PosDefQ M) : det3 M ≠ 0 := by
  intro h0
  rw [det3_eq_det] at h0
  obtain ⟨v, hv, hMv⟩ := Matrix.exists_mulVec_eq_zero_iff.mpr h0
  have hlt := h v hv
  rw [hMv, Matrix.dotProduct_zero] at hlt
  exact lt_irrefl _ hlt

/-- The inverse of a positive-definite rational matrix is positive-definite. -/
theorem inv3_posDefQ {M : Mat33} (h : PosDefQ M) : PosDefQ (inv3 M) := by
  intro v hv
  have hdet : det3 M ≠ 0 := posDefQ_det3_ne h
  have hMu : M *ᵥ (inv3 M *ᵥ v) = v := by
    rw [Matrix.mulVec_mulVec, mul_inv3 hdet, Matrix.one_mulVec]
  have hune : inv3 M *ᵥ v ≠ 0 := by
    intro h0
    rw [h0, Matrix.mulVec_zero] at hMu
    exact hv hMu.symm
  calc (0 : ℚ) < (inv3 M *ᵥ v) ⬝ᵥ (M *ᵥ (inv3 M *ᵥ v)) := h _ hune
    _ = (M *ᵥ (inv3 M *ᵥ v)) ⬝ᵥ (inv3 M *ᵥ v) := Matrix.dotProduct_comm _ _
    _ = v ⬝ᵥ (inv3 M *ᵥ v) := by rw [hMu]

/-- C6: `vertexPositionChi2` computes `Δxᵀ·C_old⁻¹·Δx` for
`Δx = newVtx.position − oldVtx.position`, and both chi-square routines return
a nonnegative value on positive-(semi)definite inputs. -/
theorem claim6_chi2 :
    (∀ oldVtx newVtx : Vertex,
      vertexPositionChi2 oldVtx newVtx =
        (newVtx.position - oldVtx.position) ⬝ᵥ
          (inv3 oldVtx.covariance *ᵥ (newVtx.position - oldVtx.position))) ∧
    (∀ oldVtx newVtx : Vertex, PosDefQ oldVtx.covariance →
      0 ≤ vertexPositionChi2 oldVtx newVtx) ∧
    (∀ (vtx : Vertex) (lt : LinearizedTrack), PosSemidefQ lt.parameterWeight →
      0 ≤ trackParametersChi2 vtx lt) := by
  refine ⟨fun _ _ => rfl, ?_, ?_⟩
  · intro o n hPD
    show 0 ≤ (n.position - o.position) ⬝ᵥ (inv3 o.covariance *ᵥ (n.position - o.position))
    by_cases hdx : n.position - o.position = 0
    · rw [hdx, Matrix.mulVec_zero, Matrix.dotProduct_zero]
    · exact le_of_lt (inv3_posDefQ hPD _ hdx)
  · intro vtx lt hG
    exact hG _

/-- Witness for C6: both chi-squares are nonnegative on the concrete
unit-covariance vertex and unit-weight track. -/
theorem claim6_witness :
    0 ≤ vertexPositionChi2 wVtx wVtx ∧ 0 ≤ trackParametersChi2 wVtx wLt :=
  ⟨claim6_chi2.2.1 wVtx wVtx posDefQ_one3, claim6_chi2.2.2 wVtx wLt posSemidefQ_one5⟩

theorem gBmat_def (lt : LinearizedTrack) :
    gBmat lt = lt.parameterWeight - lt.parameterWeight * lt.momentumJacobian *
      inv3 (lt.momentumJacobianᵀ * lt.parameterWeight * lt.momentumJacobian) *
      lt.momentumJacobianᵀ * lt.parameterWeight := rfl

/-- Symmetry of a conjugated quadratic form `Sᵀ·G·S`. -/
theorem conj_symm {m n : ℕ} (S : Matrix (Fin m) (Fin n) ℚ)
    (G : Matrix (Fin m) (Fin m) ℚ) (hG : Gᵀ = G) : (Sᵀ * G * S)ᵀ = Sᵀ * G * S := by
  rw [Matrix.transpose_mul, Matrix.transpose_mul, Matrix.transpose_transpose, hG,
    ← Matrix.mul_assoc]

/-- Schur-complement factorization of the reduced weight: with `W = (BᵀGB)⁻¹`
and `N = 1 − B·W·Bᵀ·G`, the profiled weight satisfies
`Aᵀ·(G − G·B·W·Bᵀ·G)·A = (N·A)ᵀ·G·(N·A)`. -/
theorem schur_conj (A B : Mat53) (G : Mat55) (hGsym : Gᵀ = G)
    (hM : det3 (Bᵀ * G * B) ≠ 0) :
    Aᵀ * (G - G * B * inv3 (Bᵀ * G * B) * Bᵀ * G) * A =
    ((1 - B * inv3 (Bᵀ * G * B) * Bᵀ * G) * A)ᵀ * G *
      ((1 - B * inv3 (Bᵀ * G * B) * Bᵀ * G) * A) := by
  set W := inv3 (Bᵀ * G * B) with hWdef
  have hsymM : (Bᵀ * G * B)ᵀ = Bᵀ * G * B := by
    rw [Matrix.transpose_mul, Matrix.transpose_mul, Matrix.transpose_transpose,
      ← Matrix.mul_assoc, hGsym]
  have hWsym : Wᵀ = W := by rw [hWdef]; exact inv3_symm hM hsymM
  have hWW : W * (Bᵀ * G * B) * W = W := by rw [hWdef, inv3_mul hM, one_mul]
  have hNt : ((1 : Mat55) - B * W * Bᵀ * G)ᵀ = 1 - G * B * W * Bᵀ := by
    rw [Matrix.transpose_sub, Matrix.transpose_one]
    congr 1
    rw [Matrix.transpose_mul, Matrix.transpose_mul, Matrix.transpose_mul,
      Matrix.transpose_transpose, hGsym, hWsym]
    simp only [Matrix.mul_assoc]
  have hcollapse : (G * B * W * Bᵀ * G) * (B * W * Bᵀ * G) = G * (B * W * Bᵀ * G) := by
    calc (G * B * W * Bᵀ * G) * (B * W * Bᵀ * G)
        = G * B * (W * (Bᵀ * G * B) * W) * Bᵀ * G := by simp only [Matrix.mul_assoc]
      _ = G * B * W * Bᵀ * G := by rw [hWW]
      _ = G * (B * W * Bᵀ * G) := by simp only [Matrix.mul_assoc]
  have hcentral : (1 - G * B * W * Bᵀ) * G * (1 - B * W * Bᵀ * G) =
      G - G * B * W * Bᵀ * G := by
    rw [Matrix.sub_mul, Matrix.one_mul, Matrix.mul_sub, Matrix.mul_one, Matrix.sub_mul,
      hcollapse, sub_self, sub_zero]
  calc Aᵀ * (G - G * B * W * Bᵀ * G) * A
      = Aᵀ * ((1 - G * B * W * Bᵀ) * G * (1 - B * W * Bᵀ * G)) * A := by rw [hcentral]
    _ = ((1 - B * W * Bᵀ * G) * A)ᵀ * G * ((1 - B * W * Bᵀ * G) * A) := by
        rw [Matrix.transpose_mul, hNt]
        simp only [Matrix.mul_assoc]

/-- The per-track information contribution `Aᵀ·G_B·A` is symmetric. -/
theorem K_symm (lt : LinearizedTrack) (hGsym : lt.parameterWeightᵀ = lt.parameterWeight)
    (hM : det3 (lt.momentumJacobianᵀ * lt.parameterWeight * lt.momentumJacobian) ≠ 0) :
    (lt.positionJacobianᵀ * gBmat lt * lt.positionJacobian)ᵀ =
    lt.positionJacobianᵀ * gBmat lt * lt.positionJacobian := by
  rw [gBmat_def,
    schur_conj lt.positionJacobian lt.momentumJacobian lt.parameterWeight hGsym hM]
  exact conj_symm _ _ hGsym

/-- The per-track information contribution `Aᵀ·G_B·A` is positive-semidefinite
when `G` is. -/
theorem K_posSemidefQ (lt : LinearizedTrack)
    (hGsym : lt.parameterWeightᵀ = lt.parameterWeight)
    (hGpsd : PosSemidefQ lt.parameterWeight)
    (hM : det3 (lt.momentumJacobianᵀ * lt.parameterWeight * lt.momentumJacobian) ≠ 0) :
    PosSemidefQ (lt.positionJacobianᵀ * gBmat lt * lt.positionJacobian) := by
  intro v
  rw [gBmat_def,
    schur_conj lt.positionJacobian lt.momentumJacobian lt.parameterWeight hGsym hM,
    dotProduct_conj]
  exact hGpsd _

/-- Bilinear symmetry transfer along a symmetric matrix. -/
theorem dot_mulVec_symm {n : ℕ} (M : Matrix (Fin n) (Fin n) ℚ) (hM : Mᵀ = M)
    (a b : Fin n → ℚ) : a ⬝ᵥ (M *ᵥ b) = b ⬝ᵥ (M *ᵥ a) := by
  rw [Matrix.dotProduct_mulVec, ← Matrix.mulVec_transpose, hM, Matrix.dotProduct_comm]

/-- Monotone inversion of quadratic forms: if `Y ⪯ X` pointwise on quadratic
forms with `Y` positive-semidefinite and both invertible and symmetric, then
`X⁻¹ ⪯ Y⁻¹` on quadratic forms. -/
theorem inv3_quadratic_antitone (X Y : Mat33) (hXs : Xᵀ = X) (hYs : Yᵀ = Y)
    (hXd : det3 X ≠ 0) (hYd : det3 Y ≠ 0) (hYpsd : PosSemidefQ Y)
    (hle : ∀ u, u ⬝ᵥ (Y *ᵥ u) ≤ u ⬝ᵥ (X *ᵥ u)) (v : Vec3) :
    v ⬝ᵥ (inv3 X *ᵥ v) ≤ v ⬝ᵥ (inv3 Y *ᵥ v) := by
  set u := inv3 X *ᵥ v with hu
  set w := inv3 Y *ᵥ v with hw
  have hXu : X *ᵥ u = v := by
    rw [hu, Matrix.mulVec_mulVec, mul_inv3 hXd, Matrix.one_mulVec]
  have hYw : Y *ᵥ w = v := by
    rw [hw, Matrix.mulVec_mulVec, mul_inv3 hYd, Matrix.one_mulVec]
  have hB : u ⬝ᵥ (X *ᵥ u) = u ⬝ᵥ v := by rw [hXu]
  have hC : u ⬝ᵥ (Y *ᵥ w) = u ⬝ᵥ v := by rw [hYw]
  have hD : w ⬝ᵥ (Y *ᵥ u) = u ⬝ᵥ v := by rw [dot_mulVec_symm Y hYs, hYw]
  have hE : w ⬝ᵥ (Y *ᵥ w) = w ⬝ᵥ v := by rw [hYw]
  have hexp : (u - w) ⬝ᵥ (Y *ᵥ (u - w)) =
      u ⬝ᵥ (Y *ᵥ u) - u ⬝ᵥ (Y *ᵥ w) - w ⬝ᵥ (Y *ᵥ u) + w ⬝ᵥ (Y *ᵥ w) := by
    rw [Matrix.mulVec_sub, Matrix.dotProduct_sub, Matrix.sub_dotProduct,
      Matrix.sub_dotProduct]
    ring
  have hpsd := hYpsd (u - w)
  rw [hexp, hC, hD, hE] at hpsd
  have hle' := hle u
  have hvu : v ⬝ᵥ u = u ⬝ᵥ v := Matrix.dotProduct_comm _ _
  have hvw : v ⬝ᵥ w = w ⬝ᵥ v := Matrix.dotProduct_comm _ _
  rw [hvu, hvw]
  linarith

/-- Pointwise domination of quadratic forms gives trace inequality. -/
theorem trace_le_of_quadratic (M N : Mat33)
    (h : ∀ v, v ⬝ᵥ (M *ᵥ v) ≤ v ⬝ᵥ (N *ᵥ v)) : M.trace ≤ N.trace := by
  have hdiag : ∀ i, M i i ≤ N i i := by
    intro i
    have hi := h (Pi.single i 1)
    simpa [Matrix.mulVec_single, Matrix.single_dotProduct] using hi
  exact Finset.sum_le_sum fun i _ => by
    simpa [Matrix.diag] using hdiag i

/-- C7: for a positive-definite (symmetric) prior covariance, a symmetric
positive-semidefinite parameter weight `G` and weight `w > 0`, a successful
`updatePosition` with sign +1 returns a covariance whose trace is at most the
prior covariance's trace (adding information never increases uncertainty). -/
theorem claim7_covariance_shrinkage (vtx : Vertex) (lt : LinearizedTrack)
    (w : ℚ) (V' : Vertex) (h : updatePosition vtx lt w 1 = .ok V')
    (hw : 0 < w)
    (hCsym : vtx.covarianceᵀ = vtx.covariance)
    (hCpd : PosDefQ vtx.covariance)
    (hGsym : lt.parameterWeightᵀ = lt.parameterWeight)
    (hGpsd : PosSemidefQ lt.parameterWeight) :
    V'.covariance.trace ≤ vtx.covariance.trace := by
  rw [updatePosition_eq_ok] at h
  obtain ⟨hM, hC, hPD, hV⟩ := h
  simp only [Int.cast_one, one_mul] at hPD hV
  subst hV
  dsimp only
  have hKpsd : PosSemidefQ (lt.positionJacobianᵀ * gBmat lt * lt.positionJacobian) :=
    K_posSemidefQ lt hGsym hGpsd hM
  have hKsym := K_symm lt hGsym hM
  have hYsym : (inv3 vtx.covariance)ᵀ = inv3 vtx.covariance := inv3_symm hC hCsym
  have hYpd : PosDefQ (inv3 vtx.covariance) := inv3_posDefQ hCpd
  have hYpsd : PosSemidefQ (inv3 vtx.covariance) := by
    intro v
    by_cases hv : v = 0
    · rw [hv, Matrix.mulVec_zero, Matrix.dotProduct_zero]
    · exact le_of_lt (hYpd v hv)
  have hXsym : (inv3 vtx.covariance +
      w • (lt.positionJacobianᵀ * gBmat lt * lt.positionJacobian))ᵀ =
      inv3 vtx.covariance +
      w • (lt.positionJacobianᵀ * gBmat lt * lt.positionJacobian) := by
    rw [Matrix.transpose_add, Matrix.transpose_smul, hKsym, hYsym]
  have hXd : det3 (inv3 vtx.covariance +
      w • (lt.positionJacobianᵀ * gBmat lt * lt.positionJacobian)) ≠ 0 :=
    ne_of_gt hPD.2.2
  have hYd : det3 (inv3 vtx.covariance) ≠ 0 := det3_inv3_ne_zero hC
  have hle : ∀ u, u ⬝ᵥ (inv3 vtx.covariance *ᵥ u) ≤
      u ⬝ᵥ ((inv3 vtx.covariance +
        w • (lt.positionJacobianᵀ * gBmat lt * lt.positionJacobian)) *ᵥ u) := by
    intro u
    rw [Matrix.add_mulVec, Matrix.dotProduct_add, Matrix.smul_mulVec_assoc,
      Matrix.dotProduct_smul, smul_eq_mul]
    have hnn : 0 ≤ w * (u ⬝ᵥ ((lt.positionJacobianᵀ * gBmat lt *
        lt.positionJacobian) *ᵥ u)) := mul_nonneg hw.le (hKpsd u)
    linarith
  have hq := fun v => inv3_quadratic_antitone _ _ hXsym hYsym hXd hYd hYpsd hle v
  rw [inv3_inv3 hC] at hq
  exact trace_le_of_quadratic _ _ hq

/-- Witness for C7: on the concrete unit-covariance vertex and unit-weight
track the updated covariance trace does not exceed the prior trace. -/
theorem claim7_witness : ∃ V', updatePosition wVtx wLt 1 1 = .ok V' ∧
    V'.covariance.trace ≤ wVtx.covariance.trace := by
  have hC0 : det3 wVtx.covariance ≠ 0 := by rw [wCov, det3_one]; exact one_ne_zero
  have hPD1 : posDef3Check (inv3 wVtx.covariance +
      (((1 : ℤ) : ℚ) * 1) • (wLt.positionJacobianᵀ * gBmat wLt * wLt.positionJacobian)) := by
    rw [wK, wCov, inv3_one, Matrix.one_fin_three]
    norm_num [posDef3Check, det3, Matrix.add_apply, Matrix.smul_apply,
      Matrix.vecHead, Matrix.vecTail]
  obtain ⟨V', h⟩ : ∃ V', updatePosition wVtx wLt 1 1 = .ok V' :=
    ⟨_, (updatePosition_eq_ok wVtx wLt 1 1 _).mpr ⟨wMnonsing, hC0, hPD1, rfl⟩⟩
  exact ⟨V', h, claim7_covariance_shrinkage wVtx wLt 1 V' h one_pos
    Matrix.transpose_one posDefQ_one3 Matrix.transpose_one posSemidefQ_one5⟩

end ActsKalman

namespace ActsMaterial

/-- C9: `thickness()` is reconstructed as `thicknessInX0() * averageX0()`
(lines 224-228 delegate to `m_dInX0 * m_material.X0()`); consequently the
constructor round trip `thickness(ofParams ... t) = t` holds exactly when X0
is nonzero, and fails for nonzero `t` when X0 is zero. -/
theorem claim9_thickness_identity :
    (∀ mp : MaterialProperties,
      mp.thickness = mp.thicknessInX0 * mp.averageX0) ∧
    (∀ Xo Lo a z r t : ℚ, Xo ≠ 0 →
      (MaterialProperties.ofParams Xo Lo a z r t).thickness = t) ∧
    (∀ Lo a z r t : ℚ, t ≠ 0 →
      (MaterialProperties.ofParams 0 Lo a z r t).thickness ≠ t) := by
  refine ⟨fun _ => rfl, ?_, ?_⟩
  · intro Xo Lo a z r t hX
    show (if Xo ≠ 0 then t / Xo else 0) * Xo = t
    rw [if_pos hX, div_mul_cancel₀ t hX]
  · intro Lo a z r t ht
    show (if (0 : ℚ) ≠ 0 then t / 0 else 0) * 0 ≠ t
    rw [mul_zero]
    exact fun h => ht h.symm

/-- Witness for C9: with X0 = 10 mm and thickness 3 mm the round trip holds. -/
theorem claim9_witness :
    (MaterialProperties.ofParams 10 5 1 1 1 3).thickness = 3 :=
  claim9_thickness_identity.2.1 10 5 1 1 1 3 (by norm_num)

/-- C10: a default-constructed `MaterialProperties` is vacuum: its boolean
conversion is false, the stored thickness fractions are 0, any two
default-constructed values compare equal under `operator==`, and `operator!=`
is the exact logical negation of `operator==` on all pairs. -/
theorem claim10_default_vacuum :
    MaterialProperties.mkDefault.toBool = false ∧
    MaterialProperties.mkDefault.thicknessInX0 = 0 ∧
    MaterialProperties.mkDefault.thicknessInL0 = 0 ∧
    MaterialProperties.mkDefault.beq MaterialProperties.mkDefault = true ∧
    (∀ a b : MaterialProperties, a.bne b = true ↔ ¬ a.beq b = true) := by
  refine ⟨?_, rfl, rfl, ?_, ?_⟩
  · simp [MaterialProperties.toBool, Material.toBool, MaterialProperties.mkDefault]
  · simp [MaterialProperties.beq]
  · intro a b
    simp [MaterialProperties.bne]

end ActsMaterial
